import Mathlib

/-!
Verification of the course-schedule scraper `itu_obs_pull.py`.

The pure data processing of the script is embedded directly: text
normalization (`clean_text`), table-row-to-record conversion and the
exclusion filter (`collect_course_entries`), the round-robin partitioning
of the discovered course codes (`makeChunks`, lines 239-242 of the
source), and the final merge-and-sort of the per-worker batches
(`finalMerge`, lines 256-271).

The selenium-driven parts are embedded against explicit environments that
describe what the external page does at each interaction: an `ItemEnv`
gives the number of consecutive `StaleElementReferenceException`s each
per-item phase raises before succeeding together with the table shown on a
successful read, and a `ChunkEnv` adds whether the one-time
navigation/filter setup of a worker succeeds.  `scrape_chunk` returns the
worker's outcome (records, or a propagated error) together with the trace
of driver lifecycle events, so that resource-release properties can be
stated.
-/

namespace ItuObs

/-- Characters removed by Python's `str.strip()` at both ends (ASCII
whitespace; Python also strips the other Unicode space characters, which
never occur in the scraped cell texts). -/
def pyIsSpace (c : Char) : Bool :=
  c = ' ' || c = '\t' || c = '\n' || c = '\r' || c = '\x0b' || c = '\x0c'

/-- Removal of trailing whitespace, the right half of `str.strip()`:
a character is kept unless it is whitespace and only whitespace follows. -/
def dropTrailing : List Char → List Char
  | [] => []
  | c :: rest =>
    if dropTrailing rest = [] && pyIsSpace c then [] else c :: dropTrailing rest

/-- `str.strip()`: drop leading whitespace, then trailing whitespace. -/
def stripChars (l : List Char) : List Char :=
  dropTrailing (l.dropWhile pyIsSpace)

/-- `.replace("\n", " / ")`: the pattern is the single character `'\n'`,
so the replacement acts on each character independently. -/
def replaceNl (l : List Char) : List Char :=
  (l.map (fun c => if c = '\n' then [' ', '/', ' '] else [c])).flatten

/-- `clean_text` (line 43 of the source):
`text.strip().replace("\n", " / ")`. -/
def clean_text (s : String) : String :=
  ⟨replaceNl (stripChars s.data)⟩

/-- One normalized output row: the dict built at lines 105-117
(field names transliterated to ASCII identifiers). -/
structure Record where
  Kod : String
  Ders : String
  OgretimYontemi : String
  Egitmen : String
  Gun : String
  Saat : String
  Bina : String
  Kayitli : String
  Kontenjan : String
  BolumSinirlamasi : String
  CRN : String
  deriving DecidableEq, Repr

/-- Lines 99-103: the delivery-mode cell, already normalized by
`clean_text`, is mapped to a short label for its two known raw values and
passed through unchanged otherwise. -/
def mapOgretimYontemi (s : String) : String :=
  if s = "Fiziksel (Yüz yüze)" then "Fiziksel"
  else if s = "Sanal (Çevrimiçi/Online)" then "Online"
  else s

/-- Lines 99-117: build one `Record` from the cell texts of one raw table
row.  `cells.getD i ""` models the Python indexing `cells[i]`, which the
14-cell guard makes safe. -/
def rowToRecord (cells : List String) : Record where
  Kod := clean_text (cells.getD 1 "")
  Ders := clean_text (cells.getD 2 "")
  OgretimYontemi := mapOgretimYontemi (clean_text (cells.getD 3 ""))
  Egitmen := clean_text (cells.getD 4 "")
  Gun := clean_text (cells.getD 6 "")
  Saat := clean_text (cells.getD 7 "")
  Bina := clean_text (cells.getD 5 "") ++ " / " ++ clean_text (cells.getD 8 "")
  Kayitli := clean_text (cells.getD 10 "")
  Kontenjan := clean_text (cells.getD 9 "")
  BolumSinirlamasi := clean_text (cells.getD 12 "")
  CRN := clean_text (cells.getD 0 "")

/-- The row loop of `collect_course_entries` (lines 91-124), over the rows
after the header: a row with fewer than 14 cells is skipped (`continue`),
a row whose normalized code is in `excluded_codes` is skipped, and every
other row appends exactly one `Record`. -/
def collectRows (excluded : List String) : List (List String) → List Record
  | [] => []
  | cells :: rest =>
    if cells.length < 14 then collectRows excluded rest
    else if (rowToRecord cells).Kod ∈ excluded then collectRows excluded rest
    else rowToRecord cells :: collectRows excluded rest

/-- `collect_course_entries` on a successful table read (lines 86-124):
`rows[1:]` drops the header row, then the row loop runs. -/
def collect_course_entries (excluded : List String) (rows : List (List String)) :
    List Record :=
  collectRows excluded (rows.drop 1)

/-- Python's `<` on strings, on the character-list level: lexicographic
comparison by code point, a proper prefix being smaller. -/
def strLtB : List Char → List Char → Bool
  | [], [] => false
  | [], _ :: _ => true
  | _ :: _, [] => false
  | a :: as, b :: bs => if a < b then true else if b < a then false else strLtB as bs

/-- Python's `<` on strings. -/
def pyStrLt (a b : String) : Bool :=
  strLtB a.data b.data

/-- Python's `<=` on strings (the order is total, so `a <= b ↔ ¬ b < a`). -/
def pyStrLe (a b : String) : Bool :=
  !pyStrLt b a

/-- The comparison performed by the sort key of line 271: Python compares
the tuples `(e["Kod"], e["CRN"])` lexicographically, and the components as
strings. -/
def keyLeB (a b : Record) : Bool :=
  pyStrLt a.Kod b.Kod || (a.Kod == b.Kod && pyStrLe a.CRN b.CRN)

/-- The sort-key order of line 271 as a relation. -/
def keyLe (a b : Record) : Prop :=
  keyLeB a b = true

instance : DecidableRel keyLe := fun a b => by
  unfold keyLe
  infer_instance

/-- `all_entries.sort(key=lambda e: (e.get("Kod", ""), e.get("CRN", "")))`
(line 271): Python's `list.sort` is a stable sort, modelled as stable
insertion sort under the line-271 key order. -/
def sortEntries (l : List Record) : List Record :=
  l.insertionSort keyLe

/-- Lines 256-271: the per-worker batches are concatenated in completion
order (`all_entries.extend(result)` under `as_completed`) and the
concatenation is then sorted in place. -/
def finalMerge (batches : List (List Record)) : List Record :=
  sortEntries batches.flatten

/-- Lines 239-242: `worker_count = min(WORKER_COUNT, len(ders_kodlari))`
and `chunks[idx % worker_count].append(kod)` for each enumerated item, so
chunk `j` collects, in order, exactly the items whose index is congruent
to `j` modulo the chunk count. -/
def makeChunks {α : Type} (workerCount : Nat) (items : List α) : List (List α) :=
  let n := min workerCount items.length
  (List.range n).map (fun j => (items.enum.filter (fun p => p.1 % n == j)).map Prod.snd)

/-- A `for _ in range(budget)` retry loop run against a page that raises
`StaleElementReferenceException` on the first `faults` attempts and lets
the action succeed on the next one: `true` iff the loop exits successfully
within the budget. -/
def attemptsLoop : Nat → Nat → Bool
  | _, 0 => false
  | 0, _ + 1 => true
  | faults + 1, budget + 1 => attemptsLoop faults budget

/-- External page behaviour for one chunk item: how many consecutive
staleness errors each of the three phases (course-code select, submit
click, table read) raises before succeeding, whether some uncategorized
exception interrupts the item, and the raw table (header row included)
that a successful read returns. -/
structure ItemEnv where
  selectFaults : Nat
  submitFaults : Nat
  readFaults : Nat
  otherError : Bool
  rows : List (List String)
  deriving DecidableEq

/-- The per-item body of `scrape_chunk`'s loop (lines 183-217):
`select_course_code` (budget 3, lines 59-76), the submit-button loop
(budget 3, lines 194-205) and `collect_course_entries` (budget 3, lines
86-128) are each retried in place on staleness; a phase that exhausts its
budget yields no rows for the item and the loop continues, as does the
`except Exception` handler for any other per-item failure. -/
def fetchItem (excluded : List String) (env : ItemEnv) : List Record :=
  if env.otherError then []
  else if !attemptsLoop env.selectFaults 3 then []
  else if !attemptsLoop env.submitFaults 3 then []
  else if !attemptsLoop env.readFaults 3 then []
  else collect_course_entries excluded env.rows

/-- The item loop of `scrape_chunk` (lines 183-217): `entries.extend` for
each item in chunk order, every per-item failure mode contributing zero
rows and continuing with the next item. -/
def scrapeItems (excluded : List String) (envs : List ItemEnv) : List Record :=
  (envs.map (fetchItem excluded)).flatten

/-- Driver lifecycle events of one worker session. -/
inductive Ev
  | create
  | quit
  deriving DecidableEq, Repr

/-- External behaviour of one whole worker session: whether the one-time
navigation/filter setup (lines 170-181) succeeds, and the page behaviour
for each item of the chunk. -/
structure ChunkEnv where
  setupOk : Bool
  items : List ItemEnv

/-- `scrape_chunk` (lines 162-221): an empty chunk returns before any
driver is created; otherwise the driver is created, setup and the item
loop run inside `try`, and `finally: driver.quit()` runs on every path.
A setup failure escapes `scrape_chunk` (no `except` exists at this level),
so the outcome is an error — the collected-so-far `entries` list is lost —
while the driver is still quit by the `finally`.  The returned trace lists
the driver lifecycle events of the call. -/
def scrape_chunk (excluded : List String) (env : ChunkEnv) :
    Except Unit (List Record) × List Ev :=
  if env.items.isEmpty then (Except.ok [], [])
  else if env.setupOk then
    (Except.ok (scrapeItems excluded env.items), [Ev.create, Ev.quit])
  else (Except.error (), [Ev.create, Ev.quit])

/-- Lines 256-266: the orchestrator collects each `future.result()` under
`except Exception`, so a worker whose session failed contributes zero
records to `all_entries`. -/
def workerContribution (outcome : Except Unit (List Record)) : List Record :=
  match outcome with
  | Except.ok l => l
  | Except.error _ => []

/-- A well-formed raw table row (14 cells) whose code column holds
"BLG 102", used as concrete input for witnesses. -/
def c6row : List String :=
  ["10105", "BLG 102", "Intro", "Fiziksel (Yüz yüze)", "Hoca", "EEB", "Pazartesi",
    "0830/1129", "5204", "60", "45", "", "BLG", ""]

/-! ## Text normalization lemmas -/

theorem head?_dropWhile_false {α : Type} (p : α → Bool) :
    ∀ (l : List α) (c : α), (List.dropWhile p l).head? = some c → p c = false := by
  intro l
  induction l with
  | nil => intro c h; simp [List.dropWhile] at h
  | cons a t ih =>
    intro c h
    rw [List.dropWhile_cons] at h
    by_cases hp : p a = true
    · rw [if_pos hp] at h
      exact ih c h
    · rw [if_neg hp] at h
      rw [List.head?_cons, Option.some_inj] at h
      subst h
      simpa using hp

theorem dropWhile_eq_self_of_head {α : Type} (p : α → Bool) (l : List α)
    (h : ∀ c, l.head? = some c → p c = false) : List.dropWhile p l = l := by
  cases l with
  | nil => rfl
  | cons a t =>
    rw [List.dropWhile_cons, if_neg]
    simp [h a rfl]

theorem dropTrailing_head? (l : List Char) :
    dropTrailing l = [] ∨ (dropTrailing l).head? = l.head? := by
  cases l with
  | nil => exact Or.inl rfl
  | cons c rest =>
    simp only [dropTrailing]
    split
    · exact Or.inl rfl
    · exact Or.inr rfl

theorem dropTrailing_getLast? (l : List Char) :
    ∀ c, (dropTrailing l).getLast? = some c → pyIsSpace c = false := by
  induction l with
  | nil => intro c h; simp [dropTrailing] at h
  | cons a t ih =>
    intro c h
    simp only [dropTrailing] at h
    by_cases hcond : (dropTrailing t = [] && pyIsSpace a) = true
    · rw [if_pos hcond] at h
      simp at h
    · rw [if_neg hcond] at h
      cases hdt : dropTrailing t with
      | nil =>
        rw [hdt] at h
        simp only [List.getLast?_singleton, Option.some_inj] at h
        subst h
        rw [hdt] at hcond
        simpa using hcond
      | cons x xs =>
        rw [hdt, List.getLast?_cons_cons] at h
        exact ih c (hdt ▸ h)

theorem dropTrailing_eq_self (l : List Char)
    (h : ∀ c, l.getLast? = some c → pyIsSpace c = false) : dropTrailing l = l := by
  induction l with
  | nil => rfl
  | cons a t ih =>
    cases t with
    | nil =>
      simp only [dropTrailing]
      rw [if_neg]
      simp [h a (by simp)]
    | cons b t2 =>
      have ht : dropTrailing (b :: t2) = b :: t2 :=
        ih (fun c hc => h c (by rw [List.getLast?_cons_cons]; exact hc))
      show (if dropTrailing (b :: t2) = [] && pyIsSpace a then []
            else a :: dropTrailing (b :: t2)) = a :: b :: t2
      rw [ht]
      simp

theorem replaceNl_cons (c : Char) (l : List Char) :
    replaceNl (c :: l) = (if c = '\n' then [' ', '/', ' '] else [c]) ++ replaceNl l := by
  simp [replaceNl]

theorem mem_replaceNl_ne (l : List Char) : ∀ c ∈ replaceNl l, c ≠ '\n' := by
  induction l with
  | nil => simp [replaceNl]
  | cons a t ih =>
    intro c hc
    rw [replaceNl_cons] at hc
    rcases List.mem_append.mp hc with h | h
    · by_cases ha : a = '\n'
      · rw [if_pos ha] at h
        intro e
        subst e
        exact absurd h (by decide)
      · rw [if_neg ha] at h
        simp at h
        subst h
        exact ha
    · exact ih c h

theorem replaceNl_eq_self (l : List Char) (h : ∀ c ∈ l, c ≠ '\n') : replaceNl l = l := by
  induction l with
  | nil => rfl
  | cons a t ih =>
    rw [replaceNl_cons, if_neg (h a (List.mem_cons_self a t))]
    rw [List.singleton_append, ih (fun c hc => h c (List.mem_cons_of_mem a hc))]

theorem replaceNl_ne_nil (l : List Char) (h : l ≠ []) : replaceNl l ≠ [] := by
  cases l with
  | nil => exact absurd rfl h
  | cons a t =>
    rw [replaceNl_cons]
    split <;> simp

theorem not_space_ne_nl {c : Char} (h : pyIsSpace c = false) : c ≠ '\n' := by
  intro e
  subst e
  simp [pyIsSpace] at h

theorem replaceNl_head? (l : List Char)
    (hh : ∀ c, l.head? = some c → pyIsSpace c = false) :
    ∀ c, (replaceNl l).head? = some c → pyIsSpace c = false := by
  cases l with
  | nil => intro c h; simp [replaceNl] at h
  | cons a t =>
    intro c h
    have ha := hh a rfl
    rw [replaceNl_cons, if_neg (not_space_ne_nl ha), List.singleton_append,
      List.head?_cons, Option.some_inj] at h
    subst h
    exact ha

theorem getLast?_append_right {α : Type} (l1 l2 : List α) (h : l2 ≠ []) :
    (l1 ++ l2).getLast? = l2.getLast? := by
  induction l1 with
  | nil => rfl
  | cons a t ih =>
    rw [List.cons_append]
    cases ht : t ++ l2 with
    | nil =>
      rcases List.append_eq_nil.mp ht with ⟨_, h2⟩
      exact absurd h2 h
    | cons x xs =>
      rw [List.getLast?_cons_cons, ← ht, ih]

theorem replaceNl_getLast? (l : List Char)
    (hl : ∀ c, l.getLast? = some c → pyIsSpace c = false) :
    ∀ c, (replaceNl l).getLast? = some c → pyIsSpace c = false := by
  induction l with
  | nil => intro c h; simp [replaceNl] at h
  | cons a t ih =>
    cases t with
    | nil =>
      intro c h
      have ha := hl a (by simp)
      rw [replaceNl_cons, if_neg (not_space_ne_nl ha)] at h
      simp only [replaceNl, List.map_nil, List.flatten_nil, List.append_nil,
        List.getLast?_singleton, Option.some_inj] at h
      subst h
      exact ha
    | cons b t2 =>
      intro c h
      have ih2 := ih (fun c hc => hl c (by rw [List.getLast?_cons_cons]; exact hc))
      rw [replaceNl_cons] at h
      rw [getLast?_append_right _ _ (replaceNl_ne_nil _ (by simp))] at h
      exact ih2 c h

theorem stripChars_head? (l : List Char) :
    ∀ c, (stripChars l).head? = some c → pyIsSpace c = false := by
  intro c h
  unfold stripChars at h
  rcases dropTrailing_head? (l.dropWhile pyIsSpace) with he | hagree
  · rw [he] at h
    simp at h
  · rw [hagree] at h
    exact head?_dropWhile_false pyIsSpace l c h

theorem stripChars_getLast? (l : List Char) :
    ∀ c, (stripChars l).getLast? = some c → pyIsSpace c = false :=
  dropTrailing_getLast? _

theorem stripChars_eq_self (l : List Char)
    (h1 : ∀ c, l.head? = some c → pyIsSpace c = false)
    (h2 : ∀ c, l.getLast? = some c → pyIsSpace c = false) : stripChars l = l := by
  unfold stripChars
  rw [dropWhile_eq_self_of_head _ _ h1]
  exact dropTrailing_eq_self l h2

/-- C8: `clean_text` is idempotent: a second normalization of an already
normalized field is a no-op, because the output of `clean_text` has no
leading or trailing whitespace (so the strip is the identity) and contains
no newline (so the replacement is the identity). -/
theorem clean_text_idempotent : ∀ s : String, clean_text (clean_text s) = clean_text s := by
  intro s
  have hdata : (clean_text s).data = replaceNl (stripChars s.data) := rfl
  have hh : ∀ c, (replaceNl (stripChars s.data)).head? = some c → pyIsSpace c = false :=
    replaceNl_head? _ (stripChars_head? s.data)
  have hl : ∀ c, (replaceNl (stripChars s.data)).getLast? = some c → pyIsSpace c = false :=
    replaceNl_getLast? _ (stripChars_getLast? s.data)
  show (⟨replaceNl (stripChars (clean_text s).data)⟩ : String) = clean_text s
  rw [hdata, stripChars_eq_self _ hh hl,
    replaceNl_eq_self _ (fun c hc => mem_replaceNl_ne _ c hc)]
  rfl

/-! ## Row processing: delivery mode, malformed rows, exclusion, no deduplication -/

/-- C4: after `clean_text` normalization, the delivery-mode value
"Fiziksel (Yüz yüze)" maps to "Fiziksel", "Sanal (Çevrimiçi/Online)" maps
to "Online", any other value passes through unchanged, and the mapped
value is exactly what lands in the Record's delivery-mode field. -/
theorem delivery_mode_mapping :
    mapOgretimYontemi "Fiziksel (Yüz yüze)" = "Fiziksel"
    ∧ mapOgretimYontemi "Sanal (Çevrimiçi/Online)" = "Online"
    ∧ (∀ s : String, s ≠ "Fiziksel (Yüz yüze)" → s ≠ "Sanal (Çevrimiçi/Online)" →
        mapOgretimYontemi s = s)
    ∧ (∀ cells : List String,
        (rowToRecord cells).OgretimYontemi = mapOgretimYontemi (clean_text (cells.getD 3 ""))) := by
  refine ⟨rfl, rfl, ?_, fun cells => rfl⟩
  intro s h1 h2
  simp [mapOgretimYontemi, h1, h2]

/-- Witness for C4: the unknown raw value "Hibrit" passes through. -/
theorem delivery_mode_mapping_witness :
    ("Hibrit" : String) ≠ "Fiziksel (Yüz yüze)"
    ∧ ("Hibrit" : String) ≠ "Sanal (Çevrimiçi/Online)"
    ∧ mapOgretimYontemi "Hibrit" = "Hibrit" :=
  ⟨by decide, by decide, delivery_mode_mapping.2.2.1 "Hibrit" (by decide) (by decide)⟩

/-- C5: a raw row with fewer than 14 cells contributes zero Records and
does not abort processing: deleting it from anywhere in the row list
leaves the produced Records unchanged, so all subsequent rows are still
processed (and no error is raised — the row loop is total). -/
theorem short_row_skipped :
    ∀ (excluded : List String) (pre post : List (List String)) (row : List String),
      row.length < 14 →
      collectRows excluded (pre ++ row :: post) = collectRows excluded (pre ++ post) := by
  intro excluded pre post row hrow
  induction pre with
  | nil =>
    show collectRows excluded (row :: post) = collectRows excluded post
    rw [collectRows, if_pos hrow]
  | cons cells pre ih =>
    simp only [List.cons_append, collectRows, List.append_eq]
    rw [ih]

/-- Witness for C5: the 1-cell row [""] is dropped while the following
well-formed row is still processed. -/
theorem short_row_skipped_witness :
    ([""] : List String).length < 14
    ∧ collectRows [] ([] ++ [""] :: [c6row]) = collectRows [] ([] ++ [c6row]) :=
  ⟨by decide, short_row_skipped [] [] [c6row] [""] (by decide)⟩

/-- C6: a Record whose normalized code is in the exclusion list is dropped
at Record-creation time, so no such Record appears among a table's
entries, nor in the merged and sorted final output of any number of
tables. -/
theorem excluded_code_never_output :
    (∀ (excluded : List String) (rows : List (List String)) (r : Record),
        r ∈ collectRows excluded rows → r.Kod ∉ excluded)
    ∧ (∀ (excluded : List String) (tables : List (List (List String))) (r : Record),
        r ∈ finalMerge (tables.map (collect_course_entries excluded)) → r.Kod ∉ excluded) := by
  have base : ∀ (excluded : List String) (rows : List (List String)) (r : Record),
      r ∈ collectRows excluded rows → r.Kod ∉ excluded := by
    intro excluded rows
    induction rows with
    | nil => intro r h; simp [collectRows] at h
    | cons cells rest ih =>
      intro r h
      rw [collectRows] at h
      by_cases h14 : cells.length < 14
      · rw [if_pos h14] at h
        exact ih r h
      · rw [if_neg h14] at h
        by_cases hex : (rowToRecord cells).Kod ∈ excluded
        · rw [if_pos hex] at h
          exact ih r h
        · rw [if_neg hex] at h
          rcases List.mem_cons.mp h with he | hm
          · rw [he]
            exact hex
          · exact ih r hm
  refine ⟨base, ?_⟩
  intro excluded tables r h
  simp only [finalMerge, sortEntries] at h
  have hmem : r ∈ (tables.map (collect_course_entries excluded)).flatten :=
    (List.perm_insertionSort keyLe _).subset h
  rcases List.mem_flatten.mp hmem with ⟨batch, hb, hrb⟩
  rcases List.mem_map.mp hb with ⟨tbl, _, rfl⟩
  exact base excluded (tbl.drop 1) r hrb

/-- Witness for C6: with "AKM 101" excluded, a row for "BLG 102" still
yields its Record, whose code is indeed outside the exclusion list. -/
theorem excluded_code_never_output_witness :
    rowToRecord c6row ∈ collectRows ["AKM 101"] [c6row]
    ∧ (rowToRecord c6row).Kod ∉ ["AKM 101"] :=
  ⟨by decide, excluded_code_never_output.1 ["AKM 101"] [c6row] _ (by decide)⟩

theorem length_collectRows (excluded : List String) (rows : List (List String)) :
    (collectRows excluded rows).length =
      (rows.filter (fun cells =>
        decide (14 ≤ cells.length) && decide ((rowToRecord cells).Kod ∉ excluded))).length := by
  induction rows with
  | nil => rfl
  | cons cells rest ih =>
    rw [collectRows, List.filter_cons]
    by_cases h14 : cells.length < 14
    · rw [if_pos h14]
      have hc : (decide (14 ≤ cells.length)
          && decide ((rowToRecord cells).Kod ∉ excluded)) = false := by
        simp [Nat.not_le.mpr h14]
      rw [hc, if_neg (by simp)]
      exact ih
    · rw [if_neg h14]
      have h14' : decide (14 ≤ cells.length) = true := by
        simp [Nat.le_of_not_lt h14]
      by_cases hex : (rowToRecord cells).Kod ∈ excluded
      · rw [if_pos hex]
        have hc : (decide (14 ≤ cells.length)
            && decide ((rowToRecord cells).Kod ∉ excluded)) = false := by
          simp [hex]
        rw [hc, if_neg (by simp)]
        exact ih
      · rw [if_neg hex]
        have hc : (decide (14 ≤ cells.length)
            && decide ((rowToRecord cells).Kod ∉ excluded)) = true := by
          simp [h14', hex]
        rw [hc, if_pos rfl]
        simp [ih]

/-- C10: no stage deduplicates.  Each post-header row with at least 14
cells and a non-excluded code contributes exactly one Record (the entry
count equals the count of such rows), and the final merge is a
permutation of the concatenated batches, so every Record — identical
duplicates included — keeps its exact multiplicity in the final output. -/
theorem no_dedup_pipeline :
    (∀ (excluded : List String) (rows : List (List String)),
        (collect_course_entries excluded rows).length =
          ((rows.drop 1).filter (fun cells =>
            decide (14 ≤ cells.length) && decide ((rowToRecord cells).Kod ∉ excluded))).length)
    ∧ (∀ bs : List (List Record), (finalMerge bs).Perm bs.flatten)
    ∧ (∀ (bs : List (List Record)) (r : Record),
        (finalMerge bs).count r = bs.flatten.count r) :=
  ⟨fun excluded rows => length_collectRows excluded (rows.drop 1),
    fun bs => List.perm_insertionSort keyLe bs.flatten,
    fun bs r => (List.perm_insertionSort keyLe bs.flatten).count_eq r⟩

/-! ## Retry state machine and session lifecycle -/

theorem attemptsLoop_eq (f b : Nat) : attemptsLoop f b = decide (f < b) := by
  induction b generalizing f with
  | zero => cases f <;> rfl
  | succ b ih =>
    cases f with
    | zero => simp [attemptsLoop]
    | succ f =>
      show attemptsLoop f b = decide (f + 1 < b + 1)
      rw [ih]
      simp [Nat.succ_lt_succ_iff]

/-- C3: each per-item phase (select, submit, read) is retried in place on
staleness with a budget of 3 attempts.  If every phase clears within its
budget the item yields the rows of its table; if any phase exhausts its
budget the item yields zero rows; and in both cases the surrounding item
loop processes the remaining items of the chunk unchanged. -/
theorem item_retry_budget :
    ∀ (excluded : List String) (env : ItemEnv),
      (env.otherError = false → env.selectFaults < 3 → env.submitFaults < 3 →
        env.readFaults < 3 →
        fetchItem excluded env = collect_course_entries excluded env.rows)
      ∧ ((3 ≤ env.selectFaults ∨ 3 ≤ env.submitFaults ∨ 3 ≤ env.readFaults) →
        fetchItem excluded env = [])
      ∧ (∀ pre post : List ItemEnv,
          scrapeItems excluded (pre ++ env :: post) =
            scrapeItems excluded pre ++ fetchItem excluded env ++ scrapeItems excluded post) := by
  intro excluded env
  refine ⟨?_, ?_, ?_⟩
  · intro hoe h1 h2 h3
    simp [fetchItem, hoe, attemptsLoop_eq, h1, h2, h3]
  · intro h
    rcases h with h | h | h <;>
      simp [fetchItem, attemptsLoop_eq, Nat.not_lt.mpr h]
  · intro pre post
    simp [scrapeItems, List.append_assoc]

/-- Witness for C3: with two staleness faults in each phase (the budget of
3 covers them) the item still yields its table's records. -/
theorem item_retry_budget_witness :
    (⟨2, 2, 2, false, [[""], c6row]⟩ : ItemEnv).otherError = false
    ∧ (2 < 3)
    ∧ fetchItem [] ⟨2, 2, 2, false, [[""], c6row]⟩ = collect_course_entries [] [[""], c6row] :=
  ⟨rfl, by decide, (item_retry_budget [] ⟨2, 2, 2, false, [[""], c6row]⟩).1 rfl
    (by decide) (by decide) (by decide)⟩

/-- C7 as amended: on every exit path that creates a session — normal
completion, per-item failure, or setup failure — the driver is quit
exactly once (the empty-chunk early return creates no session at all),
and a worker whose setup succeeds returns its item loop's records; but a
setup failure propagates out of `scrape_chunk` as an error (it is the
orchestrator's `except` around `future.result()` that converts it to an
empty contribution), rather than the worker returning its collected
records. -/
theorem session_release :
    ∀ (excluded : List String) (env : ChunkEnv),
      (env.items ≠ [] → (scrape_chunk excluded env).2 = [Ev.create, Ev.quit])
      ∧ (env.items = [] → (scrape_chunk excluded env).2 = [])
      ∧ ((scrape_chunk excluded env).2.count Ev.quit = (scrape_chunk excluded env).2.count Ev.create)
      ∧ (env.setupOk = true →
          (scrape_chunk excluded env).1 = Except.ok (scrapeItems excluded env.items))
      ∧ (env.setupOk = false → env.items ≠ [] →
          (scrape_chunk excluded env).1 = Except.error ()
          ∧ workerContribution (scrape_chunk excluded env).1 = []) := by
  intro excluded env
  rcases env with ⟨ok, items⟩
  cases items with
  | nil =>
    cases ok <;> simp [scrape_chunk, workerContribution, scrapeItems]
  | cons e es =>
    cases ok <;>
      simp [scrape_chunk, workerContribution, List.count_cons, List.count_nil]

/-- Witness for C7's amended statement, at a failing setup over a
one-item chunk. -/
theorem session_release_witness :
    ((⟨false, [⟨0, 0, 0, false, []⟩]⟩ : ChunkEnv).items ≠ [])
    ∧ (scrape_chunk [] ⟨false, [⟨0, 0, 0, false, []⟩]⟩).2 = [Ev.create, Ev.quit]
    ∧ (scrape_chunk [] ⟨false, [⟨0, 0, 0, false, []⟩]⟩).1 = Except.error ()
    ∧ workerContribution (scrape_chunk [] ⟨false, [⟨0, 0, 0, false, []⟩]⟩).1 = [] := by
  have h := session_release [] ⟨false, [⟨0, 0, 0, false, []⟩]⟩
  have h5 := h.2.2.2.2 rfl (by simp)
  exact ⟨by simp, h.1 (by simp), h5.1, h5.2⟩

/-- Counterexample to C7 as stated: when the one-time setup fails, the
worker does not return its collected records — `scrape_chunk` propagates
the failure (the outcome is an error, not a record batch), even though the
driver is still quit by the `finally`. -/
theorem setup_failure_propagates :
    (scrape_chunk [] ⟨false, [⟨0, 0, 0, false, []⟩]⟩).1 = Except.error ()
    ∧ ((scrape_chunk [] ⟨false, [⟨0, 0, 0, false, []⟩]⟩).1).isOk = false :=
  ⟨rfl, rfl⟩

/-! ## The sort-key order -/

theorem strLtB_irrefl : ∀ l : List Char, strLtB l l = false := by
  intro l
  induction l with
  | nil => rfl
  | cons a t ih => simp [strLtB, lt_irrefl, ih]

theorem strLtB_asymm : ∀ a b : List Char, strLtB a b = true → strLtB b a = false := by
  intro a
  induction a with
  | nil =>
    intro b h
    cases b with
    | nil => simp [strLtB] at h
    | cons y ys => rfl
  | cons x xs ih =>
    intro b h
    cases b with
    | nil => simp [strLtB] at h
    | cons y ys =>
      rw [strLtB] at h ⊢
      by_cases h1 : x < y
      · rw [if_neg (lt_asymm h1), if_pos h1]
      · rw [if_neg h1] at h
        by_cases h2 : y < x
        · rw [if_pos h2] at h
          exact absurd h (by simp)
        · rw [if_neg h2] at h
          rw [if_neg h2, if_neg h1]
          exact ih ys h

theorem strLtB_trans :
    ∀ a b c : List Char, strLtB a b = true → strLtB b c = true → strLtB a c = true := by
  intro a
  induction a with
  | nil =>
    intro b c h1 h2
    cases b with
    | nil => simp [strLtB] at h1
    | cons y ys =>
      cases c with
      | nil => simp [strLtB] at h2
      | cons z zs => rfl
  | cons x xs ih =>
    intro b c h1 h2
    cases b with
    | nil => simp [strLtB] at h1
    | cons y ys =>
      cases c with
      | nil => simp [strLtB] at h2
      | cons z zs =>
        rw [strLtB] at h1 h2 ⊢
        by_cases hxy : x < y
        · by_cases hyz : y < z
          · rw [if_pos (lt_trans hxy hyz)]
          · by_cases hzy : z < y
            · rw [if_neg hyz, if_pos hzy] at h2
              exact absurd h2 (by simp)
            · have hyz_eq : y = z := le_antisymm (not_lt.mp hzy) (not_lt.mp hyz)
              rw [if_pos (hyz_eq ▸ hxy)]
        · by_cases hyx : y < x
          · rw [if_neg hxy, if_pos hyx] at h1
            exact absurd h1 (by simp)
          · have hxy_eq : x = y := le_antisymm (not_lt.mp hyx) (not_lt.mp hxy)
            rw [if_neg hxy, if_neg hyx] at h1
            by_cases hyz : y < z
            · rw [if_pos (show x < z from hxy_eq ▸ hyz)]
            · by_cases hzy : z < y
              · rw [if_neg hyz, if_pos hzy] at h2
                exact absurd h2 (by simp)
              · have hyz_eq : y = z := le_antisymm (not_lt.mp hzy) (not_lt.mp hyz)
                rw [if_neg hyz, if_neg hzy] at h2
                have hxz : ¬ x < z := by rw [hxy_eq, hyz_eq]; exact lt_irrefl z
                have hzx : ¬ z < x := by rw [hxy_eq, hyz_eq]; exact lt_irrefl z
                rw [if_neg hxz, if_neg hzx]
                exact ih ys zs h1 h2

theorem strLtB_connex :
    ∀ a b : List Char, strLtB a b = false → strLtB b a = false → a = b := by
  intro a
  induction a with
  | nil =>
    intro b h1 h2
    cases b with
    | nil => rfl
    | cons y ys => simp [strLtB] at h1
  | cons x xs ih =>
    intro b h1 h2
    cases b with
    | nil => simp [strLtB] at h2
    | cons y ys =>
      rw [strLtB] at h1 h2
      by_cases hxy : x < y
      · rw [if_pos hxy] at h1
        exact absurd h1 (by simp)
      · by_cases hyx : y < x
        · rw [if_pos hyx] at h2
          exact absurd h2 (by simp)
        · rw [if_neg hxy, if_neg hyx] at h1
          rw [if_neg hyx, if_neg hxy] at h2
          have hx : x = y := le_antisymm (not_lt.mp hyx) (not_lt.mp hxy)
          rw [hx, ih ys h1 h2]

theorem pyStrLt_irrefl (s : String) : pyStrLt s s = false :=
  strLtB_irrefl s.data

theorem pyStrLt_asymm {a b : String} (h : pyStrLt a b = true) : pyStrLt b a = false :=
  strLtB_asymm a.data b.data h

theorem pyStrLt_transitive {a b c : String}
    (h1 : pyStrLt a b = true) (h2 : pyStrLt b c = true) : pyStrLt a c = true :=
  strLtB_trans a.data b.data c.data h1 h2

theorem pyStrEq {a b : String} (h1 : pyStrLt a b = false) (h2 : pyStrLt b a = false) :
    a = b := by
  cases a with
  | mk da =>
    cases b with
    | mk db => exact congrArg String.mk (strLtB_connex da db h1 h2)

theorem pyStrLt_false_trans {a b c : String}
    (h1 : pyStrLt b a = false) (h2 : pyStrLt c b = false) : pyStrLt c a = false := by
  cases hx : pyStrLt c a with
  | false => rfl
  | true =>
    cases hab : pyStrLt a b with
    | true =>
      have := pyStrLt_transitive hx hab
      rw [this] at h2
      exact h2
    | false =>
      have heq : a = b := pyStrEq hab h1
      rw [heq] at hx
      rw [hx] at h2
      exact h2

theorem keyLe_iff {a b : Record} :
    keyLe a b ↔
      (pyStrLt a.Kod b.Kod = true ∨ (a.Kod = b.Kod ∧ pyStrLt b.CRN a.CRN = false)) := by
  unfold keyLe keyLeB pyStrLe
  simp [Bool.or_eq_true, Bool.and_eq_true, beq_iff_eq, Bool.not_eq_true']

instance : IsTrans Record keyLe := by
  refine ⟨fun a b c hab hbc => ?_⟩
  rw [keyLe_iff] at hab hbc ⊢
  rcases hab with h1 | ⟨e1, c1⟩
  · rcases hbc with h2 | ⟨e2, c2⟩
    · exact Or.inl (pyStrLt_transitive h1 h2)
    · exact Or.inl (e2 ▸ h1)
  · rcases hbc with h2 | ⟨e2, c2⟩
    · exact Or.inl (e1 ▸ h2)
    · exact Or.inr ⟨e1.trans e2, pyStrLt_false_trans c1 c2⟩

instance : IsTotal Record keyLe := by
  refine ⟨fun a b => ?_⟩
  rw [keyLe_iff, keyLe_iff]
  cases h1 : pyStrLt a.Kod b.Kod with
  | true => exact Or.inl (Or.inl rfl)
  | false =>
    cases h2 : pyStrLt b.Kod a.Kod with
    | true => exact Or.inr (Or.inl rfl)
    | false =>
      have he : a.Kod = b.Kod := pyStrEq h1 h2
      cases h3 : pyStrLt b.CRN a.CRN with
      | false => exact Or.inl (Or.inr ⟨he, rfl⟩)
      | true => exact Or.inr (Or.inr ⟨he.symm, pyStrLt_asymm h3⟩)

theorem keyLe_antisymm_key {a b : Record} (h1 : keyLe a b) (h2 : keyLe b a) :
    a.Kod = b.Kod ∧ a.CRN = b.CRN := by
  rw [keyLe_iff] at h1 h2
  rcases h1 with h1 | ⟨e1, c1⟩
  · rcases h2 with h2 | ⟨e2, c2⟩
    · rw [pyStrLt_asymm h2] at h1
      exact absurd h1 (by simp)
    · rw [e2] at h1
      rw [pyStrLt_irrefl] at h1
      exact absurd h1 (by simp)
  · rcases h2 with h2 | ⟨e2, c2⟩
    · rw [e1] at h2
      rw [pyStrLt_irrefl] at h2
      exact absurd h2 (by simp)
    · exact ⟨e1, pyStrEq c2 c1⟩

theorem sorted_perm_eq (l1 l2 : List Record)
    (hkey : ∀ a ∈ l1, ∀ b ∈ l1, a.Kod = b.Kod → a.CRN = b.CRN → a = b) :
    l1.Perm l2 → l1.Sorted keyLe → l2.Sorted keyLe → l1 = l2 := by
  induction l1 generalizing l2 with
  | nil =>
    intro p _ _
    cases l2 with
    | nil => rfl
    | cons b t2 => exact absurd p.length_eq (by simp)
  | cons a t1 ih =>
    intro p s1 s2
    cases l2 with
    | nil => exact absurd p.length_eq (by simp)
    | cons b t2 =>
      have hab : a = b := by
        by_cases he : a = b
        · exact he
        · have ha2 : a ∈ b :: t2 := p.subset (List.mem_cons_self a t1)
          have hb1 : b ∈ a :: t1 := p.symm.subset (List.mem_cons_self b t2)
          have hba : keyLe b a := by
            rcases List.mem_cons.mp ha2 with h | h
            · exact absurd h he
            · exact (List.sorted_cons.mp s2).1 a h
          have hab' : keyLe a b := by
            rcases List.mem_cons.mp hb1 with h | h
            · exact absurd h.symm he
            · exact (List.sorted_cons.mp s1).1 b h
          have hk := keyLe_antisymm_key hab' hba
          exact hkey a (List.mem_cons_self a t1) b hb1 hk.1 hk.2
      subst hab
      have e := ih t2
        (fun x hx y hy =>
          hkey x (List.mem_cons_of_mem a hx) y (List.mem_cons_of_mem a hy))
        p.cons_inv (List.sorted_cons.mp s1).2 (List.sorted_cons.mp s2).2
      rw [e]

/-- C2 as amended: the final ResultSet is the stable sort of the batches'
concatenation by the (Kod, CRN) key, and reversing the completion order of
the batches yields a permutation of the same ResultSet — an identical one
whenever no two distinct Records share an equal (Kod, CRN) key.  (Without
that proviso equality can fail: see the counterexample.) -/
theorem final_sort_characterization :
    ∀ bs : List (List Record),
      List.Sorted keyLe (finalMerge bs)
      ∧ (finalMerge bs.reverse).Perm (finalMerge bs)
      ∧ ((∀ a ∈ bs.flatten, ∀ b ∈ bs.flatten, a.Kod = b.Kod → a.CRN = b.CRN → a = b) →
          finalMerge bs.reverse = finalMerge bs) := by
  intro bs
  have hperm : (finalMerge bs.reverse).Perm (finalMerge bs) :=
    (List.perm_insertionSort keyLe bs.reverse.flatten).trans
      ((bs.reverse_perm.flatten).trans (List.perm_insertionSort keyLe bs.flatten).symm)
  refine ⟨List.sorted_insertionSort keyLe bs.flatten, hperm, ?_⟩
  intro hkey
  have hkey1 : ∀ a ∈ finalMerge bs, ∀ b ∈ finalMerge bs,
      a.Kod = b.Kod → a.CRN = b.CRN → a = b := by
    intro a ha b hb
    exact hkey a ((List.perm_insertionSort keyLe bs.flatten).subset ha) b
      ((List.perm_insertionSort keyLe bs.flatten).subset hb)
  exact (sorted_perm_eq (finalMerge bs) (finalMerge bs.reverse) hkey1 hperm.symm
    (List.sorted_insertionSort keyLe bs.flatten)
    (List.sorted_insertionSort keyLe bs.reverse.flatten)).symm

/-- Witness for C2's amended statement: two batches with distinct
(Kod, CRN) keys merge to the same ResultSet in either completion order. -/
theorem final_sort_characterization_witness :
    (∀ a ∈ [[(⟨"BLG 102", "b", "", "", "", "", "", "", "", "", "20"⟩ : Record)],
        [(⟨"AKM 101", "a", "", "", "", "", "", "", "", "", "10"⟩ : Record)]].flatten,
      ∀ b ∈ [[(⟨"BLG 102", "b", "", "", "", "", "", "", "", "", "20"⟩ : Record)],
        [(⟨"AKM 101", "a", "", "", "", "", "", "", "", "", "10"⟩ : Record)]].flatten,
        a.Kod = b.Kod → a.CRN = b.CRN → a = b)
    ∧ finalMerge [[(⟨"BLG 102", "b", "", "", "", "", "", "", "", "", "20"⟩ : Record)],
        [(⟨"AKM 101", "a", "", "", "", "", "", "", "", "", "10"⟩ : Record)]].reverse
      = finalMerge [[(⟨"BLG 102", "b", "", "", "", "", "", "", "", "", "20"⟩ : Record)],
        [(⟨"AKM 101", "a", "", "", "", "", "", "", "", "", "10"⟩ : Record)]] :=
  ⟨by decide, (final_sort_characterization _).2.2 (by decide)⟩

/-- Counterexample to C2 as stated: two batches holding distinct Records
with the same (Kod, CRN) key — the stable sort keeps them in completion
order, so reversing the completion order changes the final ResultSet. -/
theorem final_sort_depends_on_completion_order :
    finalMerge [[(⟨"AKM 101", "x", "", "", "", "", "", "", "", "", "10"⟩ : Record)],
        [(⟨"AKM 101", "y", "", "", "", "", "", "", "", "", "10"⟩ : Record)]].reverse
      ≠ finalMerge [[(⟨"AKM 101", "x", "", "", "", "", "", "", "", "", "10"⟩ : Record)],
        [(⟨"AKM 101", "y", "", "", "", "", "", "", "", "", "10"⟩ : Record)]] := by
  decide

/-- C9: the sort key compares CRN as a character string, lexicographically
by code point, not numerically: among Records with equal Kod, the one with
the lexicographically smaller CRN comes first in the sorted output. -/
theorem sort_compares_crn_as_strings :
    ∀ r1 r2 : Record, r1.Kod = r2.Kod → pyStrLt r1.CRN r2.CRN = true →
      sortEntries [r2, r1] = [r1, r2] := by
  intro r1 r2 hkod hcrn
  have hnot : ¬ keyLe r2 r1 := by
    rw [keyLe_iff]
    intro h
    rcases h with h | ⟨e, c⟩
    · rw [hkod] at h
      rw [pyStrLt_irrefl] at h
      exact absurd h (by simp)
    · rw [hcrn] at c
      exact absurd c (by simp)
  show List.insertionSort keyLe [r2, r1] = [r1, r2]
  simp only [List.insertionSort, List.orderedInsert]
  rw [if_neg hnot]

/-- Witness for C9: with equal Kod, CRN "100" sorts before CRN "20". -/
theorem sort_compares_crn_as_strings_witness :
    pyStrLt "100" "20" = true
    ∧ sortEntries [⟨"AKM 101", "", "", "", "", "", "", "", "", "", "20"⟩,
        ⟨"AKM 101", "", "", "", "", "", "", "", "", "", "100"⟩]
      = [⟨"AKM 101", "", "", "", "", "", "", "", "", "", "100"⟩,
        ⟨"AKM 101", "", "", "", "", "", "", "", "", "", "20"⟩] :=
  ⟨by decide, sort_compares_crn_as_strings
    ⟨"AKM 101", "", "", "", "", "", "", "", "", "", "100"⟩
    ⟨"AKM 101", "", "", "", "", "", "", "", "", "", "20"⟩ rfl (by decide)⟩

/-! ## Round-robin partitioning -/

theorem count_range_mod (n j : Nat) (hn : 0 < n) (hj : j < n) :
    ∀ L : Nat, ((List.range L).filter (fun i => i % n == j)).length
      = L / n + if j < L % n then 1 else 0 := by
  intro L
  induction L with
  | zero => simp [Nat.zero_div]
  | succ L ih =>
    rw [List.range_succ, List.filter_append, List.length_append, ih]
    have hq := Nat.div_add_mod L n
    have hr : L % n < n := Nat.mod_lt L hn
    have hsingle : (List.filter (fun i => i % n == j) [L]).length
        = if L % n = j then 1 else 0 := by
      by_cases h : L % n = j <;> simp [List.filter_cons, List.filter_nil, h]
    rw [hsingle]
    by_cases hcase : L % n + 1 < n
    · have he : L + 1 = n * (L / n) + (L % n + 1) := by omega
      have h1 : (L + 1) % n = L % n + 1 := by
        rw [he, Nat.mul_add_mod, Nat.mod_eq_of_lt hcase]
      have h2 : (L + 1) / n = L / n := by
        rw [he, Nat.mul_add_div hn, Nat.div_eq_of_lt hcase]
        rfl
      rw [h1, h2]
      split_ifs <;> omega
    · have he : L + 1 = n * (L / n + 1) := by
        rw [Nat.mul_add, Nat.mul_one]
        omega
      have h1 : (L + 1) % n = 0 := by rw [he, Nat.mul_mod_right]
      have h2 : (L + 1) / n = L / n + 1 := by
        rw [he, Nat.mul_div_cancel_left _ hn]
      rw [h1, h2]
      split_ifs <;> omega

theorem filter_zip_length {α : Type} (q : Nat → Bool) :
    ∀ (r : List Nat) (l : List α), r.length = l.length →
      ((r.zip l).filter (fun p => q p.1)).length = (r.filter q).length := by
  intro r
  induction r with
  | nil => intro l h; simp
  | cons a t ih =>
    intro l h
    cases l with
    | nil => simp at h
    | cons x xs =>
      rw [List.zip_cons_cons, List.filter_cons, List.filter_cons]
      by_cases hq : q a = true
      · rw [if_pos hq, if_pos hq]
        simp [ih xs (by simpa using h)]
      · rw [if_neg hq, if_neg hq]
        exact ih xs (by simpa using h)

theorem length_chunk {α : Type} (items : List α) (n j : Nat) (hn : 0 < n) (hj : j < n) :
    ((items.enum.filter (fun p => p.1 % n == j)).map Prod.snd).length
      = items.length / n + if j < items.length % n then 1 else 0 := by
  rw [List.length_map, List.enum_eq_zip_range,
    filter_zip_length (fun i => i % n == j) (List.range items.length) items (by simp)]
  exact count_range_mod n j hn hj items.length

theorem flatten_map_nil {β : Type} :
    ∀ js : List Nat, ((js.map (fun _ => ([] : List β))).flatten) = [] := by
  intro js
  induction js with
  | nil => rfl
  | cons a t ih => simp [ih]

theorem flatten_ite_cons_perm {β : Type} (g : Nat → List β) (x : β) (k : Nat) :
    ∀ js : List Nat, k ∈ js → js.Nodup →
      ((js.map (fun j => if j = k then x :: g j else g j)).flatten).Perm
        (x :: (js.map g).flatten) := by
  intro js
  induction js with
  | nil => intro h _; simp at h
  | cons a t ih =>
    intro hk hnd
    rcases List.mem_cons.mp hk with he | hkt
    · subst he
      have hnot : ∀ j ∈ t, (if j = k then x :: g j else g j) = g j := by
        intro j hj
        rw [if_neg]
        intro e
        subst e
        exact (List.nodup_cons.mp hnd).1 hj
      rw [List.map_cons, List.flatten_cons, if_pos rfl, List.map_congr_left hnot,
        List.map_cons, List.flatten_cons, List.cons_append]
    · have hak : ¬ a = k := by
        intro e
        subst e
        exact (List.nodup_cons.mp hnd).1 hkt
      rw [List.map_cons, List.flatten_cons, if_neg hak, List.map_cons, List.flatten_cons]
      exact (List.Perm.append_left (g a) (ih hkt (List.nodup_cons.mp hnd).2)).trans
        List.perm_middle

theorem partition_flatten_perm {α : Type} (n : Nat) (hn : 0 < n) :
    ∀ l : List (Nat × α),
      (((List.range n).map (fun j => l.filter (fun p => p.1 % n == j))).flatten).Perm l := by
  intro l
  induction l with
  | nil =>
    rw [show (List.range n).map (fun j => List.filter (fun p : Nat × α => p.1 % n == j) [])
        = (List.range n).map (fun _ => []) from rfl, flatten_map_nil]
  | cons p l ih =>
    have hk : p.1 % n < n := Nat.mod_lt _ hn
    have hcong : ∀ j ∈ List.range n,
        List.filter (fun q => q.1 % n == j) (p :: l)
          = (if j = p.1 % n then p :: l.filter (fun q => q.1 % n == j)
             else l.filter (fun q => q.1 % n == j)) := by
      intro j hj
      rw [List.filter_cons]
      by_cases he : p.1 % n = j
      · rw [if_pos (by simpa using he), if_pos he.symm]
      · rw [if_neg (by simpa using he), if_neg (fun e => he e.symm)]
    rw [List.map_congr_left hcong]
    exact (flatten_ite_cons_perm (fun j => l.filter (fun q => q.1 % n == j)) p (p.1 % n)
      (List.range n) (List.mem_range.mpr hk) (List.nodup_range n)).trans (ih.cons p)

theorem makeChunks_mem {α : Type} (W : Nat) (items : List α) (c : List α)
    (hc : c ∈ makeChunks W items) :
    ∃ j, j < min W items.length ∧
      c = (items.enum.filter (fun p => p.1 % (min W items.length) == j)).map Prod.snd := by
  simp only [makeChunks] at hc
  rcases List.mem_map.mp hc with ⟨j, hj, he⟩
  exact ⟨j, List.mem_range.mp hj, he.symm⟩

theorem makeChunks_getD {α : Type} (W : Nat) (items : List α) (j : Nat)
    (hj : j < min W items.length) :
    (makeChunks W items).getD j []
      = (items.enum.filter
          (fun p => p.1 % (min W items.length) == j)).map Prod.snd := by
  simp only [makeChunks]
  rw [List.getD_eq_getElem _ _ (by simpa using hj)]
  rw [List.getElem_map, List.getElem_range]

/-- C1: for a non-empty item list and a configured worker count of at
least 2 (the branch taken at lines 237-242), round-robin partitioning
yields exactly `min W L` chunks, none empty, whose sizes differ by at most
one, whose concatenation is a permutation of the items (no duplicates, no
omissions), and item `i` lands in chunk `i % min W L`. -/
theorem round_robin_partition {α : Type} (W : Nat) (items : List α)
    (hL : 1 ≤ items.length) (hW : 2 ≤ W) :
    (makeChunks W items).length = min W items.length
    ∧ (∀ c ∈ makeChunks W items, c ≠ [])
    ∧ (∀ c1 ∈ makeChunks W items, ∀ c2 ∈ makeChunks W items,
        c1.length ≤ c2.length + 1)
    ∧ ((makeChunks W items).flatten).Perm items
    ∧ (∀ i, ∀ hi : i < items.length,
        items.get ⟨i, hi⟩
          ∈ (makeChunks W items).getD (i % min W items.length) []) := by
  have hn : 0 < min W items.length := lt_min (by omega) (by omega)
  have hnle : min W items.length ≤ items.length := Nat.min_le_right W items.length
  have hdiv : 1 ≤ items.length / min W items.length := (Nat.one_le_div_iff hn).mpr hnle
  refine ⟨by simp [makeChunks], ?_, ?_, ?_, ?_⟩
  · intro c hc
    rcases makeChunks_mem W items c hc with ⟨j, hj, rfl⟩
    rw [← List.length_pos, length_chunk items _ j hn hj]
    split_ifs <;> omega
  · intro c1 hc1 c2 hc2
    rcases makeChunks_mem W items c1 hc1 with ⟨j1, hj1, rfl⟩
    rcases makeChunks_mem W items c2 hc2 with ⟨j2, hj2, rfl⟩
    rw [length_chunk items _ j1 hn hj1, length_chunk items _ j2 hn hj2]
    split_ifs <;> omega
  · have hmc : makeChunks W items
        = List.map (List.map Prod.snd)
            ((List.range (min W items.length)).map
              (fun j => items.enum.filter (fun p => p.1 % (min W items.length) == j))) := by
      simp only [makeChunks]
      rw [List.map_map]
      rfl
    rw [hmc, ← List.map_flatten]
    have hp :=
      (partition_flatten_perm (min W items.length) hn items.enum).map Prod.snd
    rw [List.enum_map_snd] at hp
    exact hp
  · intro i hi
    rw [makeChunks_getD W items (i % min W items.length) (Nat.mod_lt _ hn)]
    apply List.mem_map.mpr
    refine ⟨(i, items.get ⟨i, hi⟩), ?_, rfl⟩
    apply List.mem_filter.mpr
    refine ⟨?_, by simp⟩
    have hb : i < items.enum.length := by simpa [List.enum_length] using hi
    have h1 : items.enum[i] = (i, items[i]) := List.getElem_enum items i hb
    have h2 : items.enum[i] ∈ items.enum := List.getElem_mem hb
    rw [h1] at h2
    exact h2

/-- Witness for C1: five items over two workers split into chunks
`[0, 2, 4]` and `[1, 3]`. -/
theorem round_robin_partition_witness :
    1 ≤ ([0, 1, 2, 3, 4] : List Nat).length ∧ 2 ≤ 2
    ∧ ((makeChunks 2 [0, 1, 2, 3, 4]).length = min 2 ([0, 1, 2, 3, 4] : List Nat).length
      ∧ (∀ c ∈ makeChunks 2 [0, 1, 2, 3, 4], c ≠ [])
      ∧ (∀ c1 ∈ makeChunks 2 [0, 1, 2, 3, 4], ∀ c2 ∈ makeChunks 2 [0, 1, 2, 3, 4],
          c1.length ≤ c2.length + 1)
      ∧ ((makeChunks 2 [0, 1, 2, 3, 4]).flatten).Perm [0, 1, 2, 3, 4]
      ∧ (∀ i, ∀ hi : i < ([0, 1, 2, 3, 4] : List Nat).length,
          ([0, 1, 2, 3, 4] : List Nat).get ⟨i, hi⟩
            ∈ (makeChunks 2 [0, 1, 2, 3, 4]).getD
                (i % min 2 ([0, 1, 2, 3, 4] : List Nat).length) [])) :=
  ⟨by decide, by decide, round_robin_partition 2 [0, 1, 2, 3, 4] (by decide) (by decide)⟩

end ItuObs
